import Mathlib

/-!
Verification of the core of `reddit/create_data.py`: comment normalisation,
linear-path reconstruction, example generation and the deterministic
train/test split.  Python strings are modelled as lists of characters
(`Str`), Python byte strings as lists of naturals (`Bytes`), Python dicts as
association lists with dict insertion semantics, and fallible Python code
(operations that can raise `IndexError`/`KeyError`) as `Option`-valued
functions where `none` models a raised exception.  `str.isalnum` is modelled
by `Char.isAlphanum` (the ASCII alphanumeric range).
-/

abbrev Str := List Char

abbrev Bytes := List Nat

/-- Python `l[-k]` for `k ≥ 1`: `none` models the raised `IndexError`. -/
def pyNeg (l : List α) (k : Nat) : Option α :=
  if k ≤ l.length then l.get? (l.length - k) else none

/-- Python `l[-n:]`.  For `n = 0` this is the whole list (as in Python,
where `l[-0:] = l[0:] = l`); otherwise it keeps the last `n` elements. -/
def pyTakeLast (n : Nat) (l : List α) : List α :=
  if n = 0 then l else l.drop (l.length - n)

/-- Python dict update `d[k] = v`: overwrite in place if the key is present
(keeping its position), otherwise append. -/
def dictUpd (d : List (Str × α)) (k : Str) (v : α) : List (Str × α) :=
  if d.any (fun e => e.1 == k) then
    d.map (fun e => if e.1 == k then (e.1, v) else e)
  else d ++ [(k, v)]

/-- Python dict built from a list of key/value pairs (later pairs overwrite
earlier ones, first-insertion order is kept). -/
def pyDictOf (l : List (Str × α)) : List (Str × α) :=
  l.foldl (fun d e => dictUpd d e.1 e.2) []

/-- Python `d[k]` as an `Option` (`none` models a raised `KeyError`). -/
def dlookup (d : List (Str × α)) (k : Str) : Option α :=
  (d.find? (fun e => e.1 == k)).map (fun e => e.2)

/-- The keys of a dict, in iteration order. -/
def dkeys (d : List (Str × α)) : List Str :=
  d.map (fun e => e.1)

/-- Python `k in d`. -/
def isKey (d : List (Str × α)) (k : Str) : Bool :=
  d.any (fun e => e.1 == k)

/-- A reddit comment, mirroring the `Comment` namedtuple. -/
structure Comment where
  id : Str
  thread_id : Str
  parent_id : Str
  body : Str
  body_is_trimmed : Bool
  author : Str
  subreddit : Str
deriving DecidableEq, Repr

/-- A raw row of the reddit table, as consumed by `normalise_comment`. -/
structure RawComment where
  id : Str
  link_id : Str
  parent_id : Str
  body : Str
  author : Str
  subreddit : Str
deriving DecidableEq, Repr

/-- Whether a raw id starts with a `t<digit>_` type tag (the shape matched
by the regex `^t[0-9]_`, with `[0-9]` the ASCII digits). -/
def hasTag (s : Str) : Bool :=
  match s with
  | 't' :: d :: '_' :: _ => d.isDigit
  | _ => false

/-- `_normalise_id`: `re.sub("^t[0-9]_", "", raw_id)` strips one leading
three-character `t<digit>_` tag (the anchored pattern can match at most
once). -/
def normalise_id (raw : Str) : Str :=
  if hasTag raw then raw.drop 3 else raw

/-- The `while` loop of `trim`, acting on the reversed text so that the last
character is at the head.  The loop drops the final character while the last
two characters are on the same side of the alphanumeric boundary; when only
one character remains, Python's `text[-2]` raises `IndexError`, modelled by
`none`. -/
def trimLoopRev : Str → Option Str
  | [] => some []
  | [_] => none
  | a :: b :: rest =>
    if a.isAlphanum == b.isAlphanum then trimLoopRev (b :: rest)
    else some (a :: b :: rest)

/-- `trim(text, max_length)`: keep short text verbatim; otherwise cut to
`max_length + 1` characters, run the boundary-seeking loop, and drop one
final character.  `none` models the `IndexError` the loop can raise. -/
def trim (text : Str) (maxLength : Nat) : Option Str :=
  if text.length ≤ maxLength then some text
  else
    match trimLoopRev (text.take (maxLength + 1)).reverse with
    | none => none
    | some rev => some rev.tail.reverse

/-- `normalise_comment`: build a `Comment` from a raw row (`none` when
`trim` raises). -/
def normalise_comment (c : RawComment) (maxLength : Nat) : Option Comment :=
  match trim c.body maxLength with
  | none => none
  | some b =>
    some { id := c.id
           thread_id := normalise_id c.link_id
           parent_id := normalise_id c.parent_id
           body := b
           body_is_trimmed := decide (c.body.length > maxLength)
           author := c.author
           subreddit := c.subreddit }

/-- `_should_skip`: drop trimmed bodies, deleted/removed placeholders, and
bodies shorter than `min_length`. -/
def should_skip (c : Comment) (minLength : Nat) : Bool :=
  c.body_is_trimmed ||
  (c.body == "[deleted]".toList || c.body == "[removed]".toList) ||
  decide (c.body.length < minLength)

/-- `id_to_children[x]`: ids of the comments whose `parent_id` is `x`, in
dict iteration order. -/
def childrenOf (d : List (Str × Comment)) (x : Str) : List Str :=
  (d.filter (fun e => e.2.parent_id == x)).map (fun e => e.1)

/-- The root seeds: ids whose `parent_id` is not a key of the dict, in
iteration order. -/
def rootsOf (d : List (Str × Comment)) : List Str :=
  (d.filter (fun e => !(isKey d e.2.parent_id))).map (fun e => e.1)

/-- A Python set built by successive `add`s (membership is all that is ever
consulted). -/
def pySet (l : List Str) : List Str :=
  l.foldl (fun s x => if s.contains x then s else x :: s) []

/-- The inner `for child_id in id_to_children[last_id]` loop: extend `seen`
and the accumulated new paths with every not-yet-seen child of `p`'s last
element. -/
def processChildren (pd : Nat) (p : List Str) :
    List Str → List Str → List (List Str) → (List Str × List (List Str))
  | [], seen, acc => (seen, acc)
  | c :: cs, seen, acc =>
    if seen.contains c then processChildren pd p cs seen acc
    else processChildren pd p cs (c :: seen) (acc ++ [pyTakeLast pd p ++ [c]])

/-- One pass of the `for path in paths` loop: `none` models the
`IndexError` raised by `path[-1]` on an empty path. -/
def roundStep (children : Str → List Str) (pd : Nat) :
    List (List Str) → List Str → Option (List Str × List (List Str))
  | [], seen => some (seen, [])
  | p :: ps, seen =>
    match p.getLast? with
    | none => none
    | some last =>
      let pr := processChildren pd p (children last) seen []
      match roundStep children pd ps pr.1 with
      | none => none
      | some res => some (res.1, pr.2 ++ res.2)

/-- The `while paths:` loop, with explicit fuel; `none` models
non-termination (fuel exhaustion) or a raised exception.  The yielded paths
of each round are exactly that round's `new_paths`, concatenated in order. -/
def loopO (children : Str → List Str) (pd : Nat) :
    Nat → List Str → List (List Str) → Option (List (List Str))
  | _, _, [] => some []
  | 0, _, _ :: _ => none
  | fuel+1, seen, p :: ps =>
    match roundStep children pd (p :: ps) seen with
    | none => none
    | some st =>
      match loopO children pd fuel st.1 st.2 with
      | none => none
      | some rest => some (st.2 ++ rest)

/-- `linear_paths(id_to_comment, parent_depth)`: seed the work-list with the
roots and run the breadth-first extension loop.  The fuel `d.length + 1`
is proved sufficient below. -/
def linear_paths (d : List (Str × Comment)) (pd : Nat) :
    Option (List (List Str)) :=
  loopO (childrenOf d) pd (d.length + 1) (pySet (rootsOf d))
    ((rootsOf d).map (fun r => [r]))

/-- One decimal digit as a character. -/
def digitChar (d : Nat) : Char :=
  match d with
  | 0 => '0' | 1 => '1' | 2 => '2' | 3 => '3' | 4 => '4'
  | 5 => '5' | 6 => '6' | 7 => '7' | 8 => '8' | 9 => '9'
  | _ => '*'

/-- Little-endian decimal digits of `n`, with structural fuel. -/
def digitsAux : Nat → Nat → List Nat
  | _, 0 => []
  | 0, _+1 => []
  | fuel+1, n+1 => (n+1) % 10 :: digitsAux fuel ((n+1) / 10)

/-- Python `str(n)` for a natural number, as used by
`"context/{0}".format(i)` on the extra-context field names. -/
def natToStr (n : Nat) : Str :=
  if n = 0 then ['0'] else ((digitsAux n n).map digitChar).reverse

/-- The byte encoding of one character under `str.encode("utf-8")`. -/
def utf8Char (c : Char) : Bytes :=
  let n := c.toNat
  if n < 128 then [n]
  else if n < 2048 then [192 + n / 64, 128 + n % 64]
  else if n < 65536 then
    [224 + n / 4096, 128 + (n / 64) % 64, 128 + n % 64]
  else
    [240 + n / 262144, 128 + (n / 4096) % 64, 128 + (n / 64) % 64,
     128 + n % 64]

/-- Python `value.encode("utf-8")`. -/
def utf8Encode (s : Str) : Bytes :=
  (s.map utf8Char).flatten

/-- A `tf.train.Example`, modelled as its logical content: an ordered map
from feature name to the list of byte-string values of its `bytes_list`. -/
abbrev TFExample := List (Str × List Bytes)

/-- The field name `context/i`. -/
def ctxName (i : Nat) : Str :=
  "context/".toList ++ natToStr i

/-- `_add_string_feature`: append one UTF-8 value to the (auto-vivified)
feature `name`. -/
def addStringFeature (ex : TFExample) (name : Str) (value : Str) : TFExample :=
  if ex.any (fun e => e.1 == name) then
    ex.map (fun e => if e.1 == name then (e.1, e.2 ++ [utf8Encode value]) else e)
  else ex ++ [(name, [utf8Encode value])]

/-- The `for i in range(parent_depth - 1)` loop of `create_examples`:
starting at reverse index `-3 - i`, add one `context/i` field per remaining
ancestor; an `IndexError` breaks the loop, a `KeyError` (missing id, `none`)
propagates. -/
def addExtra (d : List (Str × Comment)) (p : List Str) :
    TFExample → Nat → Nat → Option TFExample
  | ex, _, 0 => some ex
  | ex, i, n+1 =>
    match pyNeg p (3 + i) with
    | none => some ex
    | some cid =>
      match dlookup d cid with
      | none => none
      | some c => addExtra d p (addStringFeature ex (ctxName i) c.body) (i+1) n

/-- The example built for one surviving path: the six fixed fields followed
by the extra-context walk. -/
def buildExample (d : List (Str × Comment)) (pd : Nat) (p : List Str)
    (ctx resp : Comment) : Option TFExample :=
  let e0 := addStringFeature [] "subreddit".toList resp.subreddit
  let e1 := addStringFeature e0 "thread_id".toList resp.thread_id
  let e2 := addStringFeature e1 "context_author".toList ctx.author
  let e3 := addStringFeature e2 "response_author".toList resp.author
  let e4 := addStringFeature e3 "context".toList ctx.body
  let e5 := addStringFeature e4 "response".toList resp.body
  addExtra d p e5 0 (pd - 1)

/-- `{comment.id: comment for comment in thread}`. -/
def threadDict (thread : List Comment) : List (Str × Comment) :=
  pyDictOf (thread.map (fun c => (c.id, c)))

/-- The body of the `for linear_path in linear_paths(...)` loop: look up the
response (`path[-1]`) and context (`path[-2]`), apply `_should_skip` to
both, and emit the built example for a surviving pair. -/
def processPaths (d : List (Str × Comment)) (pd ml : Nat) :
    List (List Str) → Option (List TFExample)
  | [] => some []
  | p :: rest =>
    match pyNeg p 1 with
    | none => none
    | some rid =>
      match dlookup d rid with
      | none => none
      | some resp =>
        match pyNeg p 2 with
        | none => none
        | some cid =>
          match dlookup d cid with
          | none => none
          | some ctx =>
            if should_skip resp ml || should_skip ctx ml then
              processPaths d pd ml rest
            else
              match buildExample d pd p ctx resp with
              | none => none
              | some ex =>
                match processPaths d pd ml rest with
                | none => none
                | some rest2 => some (ex :: rest2)

/-- `create_examples(thread, parent_depth, min_length)`. -/
def create_examples (thread : List Comment) (pd ml : Nat) :
    Option (List TFExample) :=
  match linear_paths (threadDict thread) pd with
  | none => none
  | some lp => processPaths (threadDict thread) pd ml lp

/-- The response comment of a path: `id_to_comment[path[-1]]`. -/
def respOf (d : List (Str × Comment)) (p : List Str) : Option Comment :=
  match pyNeg p 1 with
  | none => none
  | some i => dlookup d i

/-- The context comment of a path: `id_to_comment[path[-2]]`. -/
def ctxOf (d : List (Str × Comment)) (p : List Str) : Option Comment :=
  match pyNeg p 2 with
  | none => none
  | some i => dlookup d i

/-- Whether a path's (context, response) pair survives the skip filter. -/
def keepPair (d : List (Str × Comment)) (ml : Nat) (p : List Str) :
    Option Bool :=
  match respOf d p, ctxOf d p with
  | some r, some c => some (!(should_skip r ml) && !(should_skip c ml))
  | _, _ => none

/-- The example emitted for one path (response and context resolved from the
path's last two elements). -/
def emitOne (d : List (Str × Comment)) (pd : Nat) (p : List Str) :
    Option TFExample :=
  match respOf d p, ctxOf d p with
  | some r, some c => buildExample d pd p c r
  | _, _ => none

/-- The 64 MD5 round constants `K[i] = floor(2^32 * abs(sin(i+1)))`. -/
def md5K : List Nat :=
  [0xd76aa478, 0xe8c7b756, 0x242070db, 0xc1bdceee,
   0xf57c0faf, 0x4787c62a, 0xa8304613, 0xfd469501,
   0x698098d8, 0x8b44f7af, 0xffff5bb1, 0x895cd7be,
   0x6b901122, 0xfd987193, 0xa679438e, 0x49b40821,
   0xf61e2562, 0xc040b340, 0x265e5a51, 0xe9b6c7aa,
   0xd62f105d, 0x02441453, 0xd8a1e681, 0xe7d3fbc8,
   0x21e1cde6, 0xc33707d6, 0xf4d50d87, 0x455a14ed,
   0xa9e3e905, 0xfcefa3f8, 0x676f02d9, 0x8d2a4c8a,
   0xfffa3942, 0x8771f681, 0x6d9d6122, 0xfde5380c,
   0xa4beea44, 0x4bdecfa9, 0xf6bb4b60, 0xbebfbc70,
   0x289b7ec6, 0xeaa127fa, 0xd4ef3085, 0x04881d05,
   0xd9d4d039, 0xe6db99e5, 0x1fa27cf8, 0xc4ac5665,
   0xf4292244, 0x432aff97, 0xab9423a7, 0xfc93a039,
   0x655b59c3, 0x8f0ccc92, 0xffeff47d, 0x85845dd1,
   0x6fa87e4f, 0xfe2ce6e0, 0xa3014314, 0x4e0811a1,
   0xf7537e82, 0xbd3af235, 0x2ad7d2bb, 0xeb86d391]

/-- The 64 MD5 per-round left-rotation amounts. -/
def md5S : List Nat :=
  [7, 12, 17, 22, 7, 12, 17, 22, 7, 12, 17, 22, 7, 12, 17, 22,
   5, 9, 14, 20, 5, 9, 14, 20, 5, 9, 14, 20, 5, 9, 14, 20,
   4, 11, 16, 23, 4, 11, 16, 23, 4, 11, 16, 23, 4, 11, 16, 23,
   6, 10, 15, 21, 6, 10, 15, 21, 6, 10, 15, 21, 6, 10, 15, 21]

/-- 32-bit left rotation of a word. -/
def rotl32 (x s : Nat) : Nat :=
  ((x <<< s) ||| (x >>> (32 - s))) % 4294967296

/-- The MD5 mixing function of round `i` (bitwise NOT within 32 bits is
XOR with `0xffffffff`). -/
def md5F (i b c d : Nat) : Nat :=
  if i < 16 then (b &&& c) ||| ((b ^^^ 0xffffffff) &&& d)
  else if i < 32 then (d &&& b) ||| ((d ^^^ 0xffffffff) &&& c)
  else if i < 48 then b ^^^ c ^^^ d
  else c ^^^ (b ||| (d ^^^ 0xffffffff))

/-- The MD5 message-word index of round `i`. -/
def md5G (i : Nat) : Nat :=
  if i < 16 then i
  else if i < 32 then (5 * i + 1) % 16
  else if i < 48 then (3 * i + 5) % 16
  else (7 * i) % 16

/-- One MD5 round operation on the state quadruple. -/
def md5Op (M : List Nat) (st : Nat × Nat × Nat × Nat) (i : Nat) :
    Nat × Nat × Nat × Nat :=
  let a := st.1
  let b := st.2.1
  let c := st.2.2.1
  let d := st.2.2.2
  let f := (md5F i b c d + a + md5K.getD i 0 + M.getD (md5G i) 0) % 4294967296
  (d, (b + rotl32 f (md5S.getD i 0)) % 4294967296, b, c)

/-- The sixteen 32-bit little-endian words of one 64-byte block. -/
def md5Words (block : Bytes) : List Nat :=
  (List.range 16).map (fun j =>
    block.getD (4 * j) 0 + 256 * block.getD (4 * j + 1) 0 +
    65536 * block.getD (4 * j + 2) 0 + 16777216 * block.getD (4 * j + 3) 0)

/-- Process one 64-byte block. -/
def md5Block (st : Nat × Nat × Nat × Nat) (block : Bytes) :
    Nat × Nat × Nat × Nat :=
  let M := md5Words block
  let r := (List.range 64).foldl (md5Op M) st
  ((st.1 + r.1) % 4294967296, (st.2.1 + r.2.1) % 4294967296,
   (st.2.2.1 + r.2.2.1) % 4294967296, (st.2.2.2 + r.2.2.2) % 4294967296)

/-- The 4 little-endian bytes of a 32-bit word. -/
def le4 (n : Nat) : Bytes :=
  (List.range 4).map (fun i => (n >>> (8 * i)) % 256)

/-- The 8 little-endian bytes of a 64-bit word. -/
def le8 (n : Nat) : Bytes :=
  (List.range 8).map (fun i => (n >>> (8 * i)) % 256)

/-- MD5 padding: `0x80`, zeros to 56 mod 64, then the bit length as a
64-bit little-endian integer. -/
def md5Pad (msg : Bytes) : Bytes :=
  msg ++ [128] ++ List.replicate ((119 - msg.length % 64) % 64) 0 ++
    le8 ((msg.length * 8) % 18446744073709551616)

/-- Split a byte list into 64-byte chunks (structural fuel: one chunk
consumes at least one byte). -/
def chunksAux : Nat → Bytes → List Bytes
  | _, [] => []
  | 0, _ :: _ => []
  | fuel+1, x :: xs => (x :: xs).take 64 :: chunksAux fuel ((x :: xs).drop 64)

/-- The 16-byte MD5 digest of a message. -/
def md5Digest (msg : Bytes) : Bytes :=
  let padded := md5Pad msg
  let st := (chunksAux padded.length padded).foldl md5Block
    (0x67452301, 0xefcdab89, 0x98badcfe, 0x10325476)
  le4 st.1 ++ le4 st.2.1 ++ le4 st.2.2.1 ++ le4 st.2.2.2

/-- `int(md5(msg).hexdigest(), 16)`: the digest read as a big unsigned
integer. -/
def md5Int (msg : Bytes) : Nat :=
  (md5Digest msg).foldl (fun a b => 256 * a + b) 0

/-- `_TrainTestSplitFn._split_value`: the bucket value in `(0, 1]`,
computed exactly in `ℚ` (every bucket value and its comparison against the
threshold are exact in binary floating point, as the denominator is a power
of two). -/
def split_value (numBuckets : Nat) (threadId : Bytes) : ℚ :=
  (1 + (md5Int threadId % numBuckets : Nat) : ℚ) / (numBuckets : ℚ)

/-- The tag chosen by `_TrainTestSplitFn.process` from a thread id. -/
def splitTag (trainSplit : ℚ) (numBuckets : Nat) (threadId : Bytes) : Str :=
  if split_value numBuckets threadId < trainSplit then "train".toList
  else "test".toList

/-- `_TrainTestSplitFn.process`: unpack the single `thread_id` value of the
example (`none` models the `ValueError` of a failed unpacking) and tag the
example. -/
def processSplit (trainSplit : ℚ) (numBuckets : Nat) (ex : TFExample) :
    Option Str :=
  match dlookup ex "thread_id".toList with
  | some [tid] => some (splitTag trainSplit numBuckets tid)
  | _ => none

/-- A sample comment for concrete runs. -/
def cmt (i p b : Str) : Comment :=
  { id := i, thread_id := "T".toList, parent_id := p, body := b,
    body_is_trimmed := false, author := "au".toList,
    subreddit := "sr".toList }

/-- The dict of the four-comment chain A(root) → B → C → D. -/
def chainDict : List (Str × Comment) :=
  [("A".toList, cmt "A".toList "T0".toList "body".toList),
   ("B".toList, cmt "B".toList "A".toList "body".toList),
   ("C".toList, cmt "C".toList "B".toList "body".toList),
   ("D".toList, cmt "D".toList "C".toList "body".toList)]

/-- A malformed comment set containing the parent cycle X → Y → X next to
the well-formed chain R → S. -/
def cycleDict : List (Str × Comment) :=
  [("X".toList, cmt "X".toList "Y".toList "body".toList),
   ("Y".toList, cmt "Y".toList "X".toList "body".toList),
   ("R".toList, cmt "R".toList "ext".toList "body".toList),
   ("S".toList, cmt "S".toList "R".toList "body".toList)]

/-- A sample three-comment thread for concrete example generation. -/
def sampleThread : List Comment :=
  [cmt "A".toList "T0".toList "first message".toList,
   cmt "B".toList "A".toList "second message".toList,
   cmt "C".toList "B".toList "third message".toList]

/-- A sample raw row. -/
def sampleRaw (b : Str) : RawComment :=
  { id := "i0".toList, link_id := "t3_T".toList, parent_id := "t1_p".toList,
    body := b, author := "au".toList, subreddit := "sr".toList }

/-- A path is a reply chain: each element after the first names a comment
whose `parent_id` is the preceding element. -/
def isChain (d : List (Str × Comment)) : List Str → Bool
  | [] => true
  | [_] => true
  | x :: y :: rest =>
    (match dlookup d y with
     | some c => c.parent_id == x
     | none => false) && isChain d (y :: rest)

/-- The comment `normalise_comment` builds from the sample raw row with
body `"hello world!"` and `max_length = 5`. -/
def trimmedSample : Comment :=
  { id := "i0".toList, thread_id := "T".toList, parent_id := "p".toList,
    body := "hello".toList, body_is_trimmed := true, author := "au".toList,
    subreddit := "sr".toList }

/-- A sample serialized example holding a single `thread_id` value. -/
def sampleSplitExample : TFExample :=
  [("thread_id".toList, [utf8Encode "abc".toList])]

/-- Parse a decimal string back to a natural number (proof tool used to
show the `context/i` field names are pairwise distinct). -/
def parseNat (s : Str) : Nat :=
  s.foldl (fun a c => 10 * a + (c.toNat - 48)) 0

/-- The first example generated from the sample thread with
`parent_depth = 2`, `min_length = 3`. -/
def sampleOut1 : TFExample :=
  [("subreddit".toList, [utf8Encode "sr".toList]),
   ("thread_id".toList, [utf8Encode "T".toList]),
   ("context_author".toList, [utf8Encode "au".toList]),
   ("response_author".toList, [utf8Encode "au".toList]),
   ("context".toList, [utf8Encode "first message".toList]),
   ("response".toList, [utf8Encode "second message".toList])]

/-- The second example generated from the sample thread: its path
`[A, B, C]` contributes the extra field `context/0` holding the root's
body verbatim. -/
def sampleOut2 : TFExample :=
  [("subreddit".toList, [utf8Encode "sr".toList]),
   ("thread_id".toList, [utf8Encode "T".toList]),
   ("context_author".toList, [utf8Encode "au".toList]),
   ("response_author".toList, [utf8Encode "au".toList]),
   ("context".toList, [utf8Encode "second message".toList]),
   ("response".toList, [utf8Encode "third message".toList]),
   (ctxName 0, [utf8Encode "first message".toList])]

section TrimLemmas

lemma bool_and_of_beq_false {a b : Bool} (h : (a == b) = false) :
    (b && a) = false := by
  cases a <;> cases b <;> simp_all

/-- A successful run of the boundary loop on a list of length ≥ 2 returns a
suffix of its input whose first two elements straddle the alphanumeric
boundary. -/
lemma trimLoopRev_sound :
    ∀ (l out : Str), trimLoopRev l = some out → l ≠ [] →
      ∃ a b rest, out = a :: b :: rest ∧
        (a.isAlphanum == b.isAlphanum) = false ∧ out <:+ l := by
  intro l
  induction l with
  | nil => intro out h hne; exact absurd rfl hne
  | cons x xs ih =>
    intro out h _
    match xs, h, ih with
    | [], h, _ => simp [trimLoopRev] at h
    | y :: ys, h, ih =>
      by_cases hc : (x.isAlphanum == y.isAlphanum) = true
      · rw [trimLoopRev, if_pos hc] at h
        obtain ⟨a, b, rest, hout, hb, hsuf⟩ := ih out h (by simp)
        exact ⟨a, b, rest, hout, hb, hsuf.trans (List.suffix_cons x (y :: ys))⟩
      · rw [trimLoopRev, if_neg hc] at h
        refine ⟨x, y, ys, (Option.some_inj.mp h).symm, ?_, ?_⟩
        · exact Bool.eq_false_iff.mpr hc
        · rw [← Option.some_inj.mp h]

lemma get?_append_cons (l1 : List α) (x : α) (l2 : List α) :
    (l1 ++ x :: l2).get? l1.length = some x := by
  induction l1 with
  | nil => rfl
  | cons a as ih => simpa using ih

/-- A successful `trim` on an over-long text returns a prefix of length at
most `max_length` whose cut does not fall between two alphanumeric
characters. -/
lemma trim_sound (text : Str) (m : Nat) (r : Str)
    (hm : m < text.length) (h : trim text m = some r) :
    r.length ≤ m ∧ r <+: text ∧
      ∃ a b, r.getLast? = some b ∧ text.get? r.length = some a ∧
        (b.isAlphanum && a.isAlphanum) = false := by
  rw [trim, if_neg (by omega)] at h
  have htk : (text.take (m + 1)).length = m + 1 := by
    rw [List.length_take]; omega
  have hne : (text.take (m + 1)).reverse ≠ [] := by
    intro hcon
    have := congrArg List.length hcon
    simp [htk] at this
  cases hrl : trimLoopRev (text.take (m + 1)).reverse with
  | none => rw [hrl] at h; exact absurd h (by simp)
  | some rev =>
    rw [hrl] at h
    obtain ⟨a, b, rest, hout, hb, hsuf⟩ := trimLoopRev_sound _ _ hrl hne
    have hr : r = (b :: rest).reverse := by
      have := Option.some_inj.mp h
      rw [← this, hout]
      rfl
    -- the kept text together with the first dropped character is a prefix
    have hpre : (b :: rest).reverse ++ [a] <+: text := by
      have h1 : rev.reverse <+: text.take (m + 1) := by
        rw [← List.reverse_reverse (text.take (m + 1))] at hsuf
        exact List.reverse_suffix.mp (by simpa using hsuf)
      have h2 : rev.reverse = (b :: rest).reverse ++ [a] := by
        rw [hout]; simp
      exact (h2 ▸ h1).trans (List.take_prefix _ _)
    refine ⟨?_, ?_, a, b, ?_, ?_, ?_⟩
    · -- length bound
      have : rev.length ≤ m + 1 := htk ▸ (by simpa using hsuf.length_le)
      rw [hr]
      simp only [List.length_reverse, List.length_cons]
      rw [hout] at this
      simp only [List.length_cons] at this
      omega
    · -- prefix of the original text
      rw [hr]
      exact (List.prefix_append _ [a]).trans hpre
    · -- last kept character
      rw [hr, List.reverse_cons, List.getLast?_concat]
    · -- first dropped character
      obtain ⟨s, hs⟩ := hpre
      rw [hr, ← hs]
      have : (b :: rest).reverse ++ [a] ++ s =
          (b :: rest).reverse ++ (a :: s) := by simp
      rw [this, get?_append_cons]
    · exact bool_and_of_beq_false hb

end TrimLemmas

/-- C1: the claim states `trim` is total for every body and positive
`max_length`, in particular on bodies whose leading `max_length + 1`
characters are all alphanumeric.  The code instead raises `IndexError`
there (`text[-2]` on a one-character string), modelled by `none`: on body
`"aaa"` with `max_length = 2` both `trim` and `normalise_comment` raise. -/
theorem trim_not_total_on_uniform_prefix :
    trim "aaa".toList 2 = none ∧
      normalise_comment (sampleRaw "aaa".toList) 2 = none := by
  constructor
  · rfl
  · rfl

/-- C2 counterexample: the unqualified claim — that `trim` returns a string
for *every* body longer than `max_length` — is false: on `"aaaa"` with
`max_length = 3` (positive, body longer than it) the loop raises instead of
returning. -/
theorem trim_no_result_on_aaaa :
    trim "aaaa".toList 3 = none ∧ 3 < "aaaa".toList.length := by
  constructor
  · rfl
  · decide

/-- C2 (amended): whenever the body exceeds `max_length` (positive) and
`trim` returns normally, the result has length at most `max_length`, is a
prefix whose cut does not split a run of alphanumeric characters, and the
comment built by `normalise_comment` has `body_is_trimmed = true`. -/
theorem normalise_comment_trimmed_spec (raw : RawComment) (m : Nat)
    (c : Comment) (hm : 0 < m) (hlen : m < raw.body.length)
    (h : normalise_comment raw m = some c) :
    trim raw.body m = some c.body ∧
    c.body.length ≤ m ∧
    c.body <+: raw.body ∧
    (∃ a b, c.body.getLast? = some b ∧ raw.body.get? c.body.length = some a ∧
      (b.isAlphanum && a.isAlphanum) = false) ∧
    c.body_is_trimmed = true := by
  rw [normalise_comment] at h
  cases ht : trim raw.body m with
  | none => rw [ht] at h; exact absurd h (by simp)
  | some b =>
    rw [ht] at h
    have hc := Option.some_inj.mp h
    have hbody : c.body = b := by rw [← hc]
    obtain ⟨h1, h2, h3⟩ := trim_sound raw.body m b hlen ht
    refine ⟨by rw [hbody], by rw [hbody]; exact h1,
      by rw [hbody]; exact h2, by rw [hbody]; exact h3, ?_⟩
    rw [← hc]
    simpa using hlen

/-- Witness for C2 at body `"hello world!"`, `max_length = 5`: the trimmed
body is `"hello"`. -/
theorem normalise_comment_trimmed_spec_witness :
    trim (sampleRaw "hello world!".toList).body 5 = some trimmedSample.body ∧
    trimmedSample.body.length ≤ 5 ∧
    trimmedSample.body <+: (sampleRaw "hello world!".toList).body ∧
    (∃ a b, trimmedSample.body.getLast? = some b ∧
      (sampleRaw "hello world!".toList).body.get? trimmedSample.body.length =
        some a ∧ (b.isAlphanum && a.isAlphanum) = false) ∧
    trimmedSample.body_is_trimmed = true :=
  normalise_comment_trimmed_spec (sampleRaw "hello world!".toList) 5
    trimmedSample (by decide) (by decide) (by rfl)

/-- C10: for every body of length at most `max_length`, trimming is a no-op
and the comment built by `normalise_comment` keeps the body verbatim with
`body_is_trimmed = false`. -/
theorem normalise_comment_short_body_noop (raw : RawComment) (m : Nat)
    (hlen : raw.body.length ≤ m) :
    trim raw.body m = some raw.body ∧
    ∃ c, normalise_comment raw m = some c ∧ c.body = raw.body ∧
      c.body_is_trimmed = false := by
  have ht : trim raw.body m = some raw.body := by
    rw [trim, if_pos hlen]
  have hn : normalise_comment raw m =
      some { id := raw.id, thread_id := normalise_id raw.link_id,
             parent_id := normalise_id raw.parent_id, body := raw.body,
             body_is_trimmed := decide (raw.body.length > m),
             author := raw.author, subreddit := raw.subreddit } := by
    unfold normalise_comment
    rw [ht]
  refine ⟨ht, _, hn, rfl, ?_⟩
  simp only [decide_eq_false_iff_not]
  omega

/-- Witness for C10: body `"hi"` with `max_length = 5` is kept verbatim. -/
theorem normalise_comment_short_body_noop_witness :
    trim (sampleRaw "hi".toList).body 5 = some (sampleRaw "hi".toList).body ∧
    ∃ c, normalise_comment (sampleRaw "hi".toList) 5 = some c ∧
      c.body = (sampleRaw "hi".toList).body ∧ c.body_is_trimmed = false :=
  normalise_comment_short_body_noop (sampleRaw "hi".toList) 5 (by decide)

/-- C8 counterexample: `normalise(normalise(x)) = normalise(x)` fails for
the raw id `"t1_t2_abc"`: one application yields `"t2_abc"`, a second
application strips again and yields `"abc"`. -/
theorem normalise_id_not_idempotent :
    normalise_id (normalise_id "t1_t2_abc".toList) ≠
      normalise_id "t1_t2_abc".toList := by
  decide

/-- C8 (amended): `_normalise_id` strips at most one leading `t<digit>_`
tag, so it is the identity on ids that do not start with such a tag; hence
normalisation is idempotent exactly on ids whose normalised form carries no
further tag, and both `"t1_abc"` and `"t3_abc"` normalise to `"abc"`. -/
theorem normalise_id_idempotent_on_tagless :
    (∀ s : Str, hasTag s = false → normalise_id s = s) ∧
    (∀ s : Str, hasTag (normalise_id s) = false →
      normalise_id (normalise_id s) = normalise_id s) ∧
    normalise_id "t1_abc".toList = "abc".toList ∧
    normalise_id "t3_abc".toList = "abc".toList := by
  have hid : ∀ s : Str, hasTag s = false → normalise_id s = s := by
    intro s h
    rw [normalise_id, if_neg (by simp [h])]
  exact ⟨hid, fun s h => hid _ h, by decide, by decide⟩

/-- Witness for C8: `"abc"` carries no tag, so normalising it is the
identity, and a second normalisation of `"t1_abc"` changes nothing. -/
theorem normalise_id_idempotent_on_tagless_witness :
    normalise_id "abc".toList = "abc".toList ∧
    normalise_id (normalise_id "t1_abc".toList) =
      normalise_id "t1_abc".toList :=
  ⟨normalise_id_idempotent_on_tagless.1 "abc".toList (by decide),
   normalise_id_idempotent_on_tagless.2.1 "t1_abc".toList (by decide)⟩

/-- C3 counterexample: on the chain A(root) → B → C → D with
`parent_depth = 2` the builder does *not* produce the claimed path list
`[A,B], [B,C], [C,D]`: the actual output is `[A,B], [A,B,C], [B,C,D]`
(the window keeps the last `parent_depth` elements of the *old* path and
then appends the child), and in particular `[B,C]` is never produced. -/
theorem linear_paths_chain_counterexample :
    linear_paths chainDict 2 =
      some [["A".toList, "B".toList],
            ["A".toList, "B".toList, "C".toList],
            ["B".toList, "C".toList, "D".toList]] ∧
    ["B".toList, "C".toList] ∉
      [["A".toList, "B".toList],
       ["A".toList, "B".toList, "C".toList],
       ["B".toList, "C".toList, "D".toList]] :=
  ⟨rfl, by decide⟩

/-- C3 (amended): on the chain A(root) → B → C → D with `parent_depth = 2`
the Path Builder produces exactly the paths `[A,B]`, `[A,B,C]`, `[B,C,D]`,
each of length at most `parent_depth + 1 = 3`, and every comment other than
the root appears as the last element of exactly one produced path
(the last elements are exactly `B`, `C`, `D`, pairwise distinct). -/
theorem linear_paths_chain_spec :
    linear_paths chainDict 2 =
      some [["A".toList, "B".toList],
            ["A".toList, "B".toList, "C".toList],
            ["B".toList, "C".toList, "D".toList]] ∧
    (∀ p ∈ [["A".toList, "B".toList],
            ["A".toList, "B".toList, "C".toList],
            ["B".toList, "C".toList, "D".toList]], List.length p ≤ 3) ∧
    ([["A".toList, "B".toList],
      ["A".toList, "B".toList, "C".toList],
      ["B".toList, "C".toList, "D".toList]].map
        (fun p => p.getLast?)) =
      [some "B".toList, some "C".toList, some "D".toList] ∧
    (["B".toList, "C".toList, "D".toList] : List Str).Nodup :=
  ⟨rfl, by decide, by decide, by decide⟩

section PathBuilderLemmas

lemma childrenOf_mem {d : List (Str × Comment)} {x y : Str}
    (h : y ∈ childrenOf d x) : ∃ c, (y, c) ∈ d ∧ c.parent_id = x := by
  unfold childrenOf at h
  simp only [List.mem_map, List.mem_filter] at h
  obtain ⟨e, ⟨hmem, hpar⟩, hfst⟩ := h
  refine ⟨e.2, ?_, by simpa using hpar⟩
  rw [← hfst, Prod.mk.eta]
  exact hmem

lemma childrenOf_sub_keys {d : List (Str × Comment)} {x y : Str}
    (h : y ∈ childrenOf d x) : y ∈ dkeys d := by
  obtain ⟨c, hmem, _⟩ := childrenOf_mem h
  exact List.mem_map.mpr ⟨(y, c), hmem, rfl⟩

lemma dlookup_eq_of_mem {d : List (Str × Comment)} {y : Str} {c : Comment}
    (hnd : (dkeys d).Nodup) (h : (y, c) ∈ d) : dlookup d y = some c := by
  induction d with
  | nil => simp at h
  | cons e es ih =>
    rw [dkeys, List.map_cons, List.nodup_cons] at hnd
    rcases List.mem_cons.mp h with he | hes
    · rw [← he]
      simp [dlookup, List.find?]
    · have hy : y ∈ dkeys es := List.mem_map.mpr ⟨(y, c), hes, rfl⟩
      have hne : (e.1 == y) = false := by
        rw [beq_eq_false_iff_ne]
        intro hcon
        exact hnd.1 (by rwa [hcon])
      rw [dlookup, List.find?]
      rw [hne]
      exact ih hnd.2 hes

lemma pyTakeLast_suffix (n : Nat) (l : List α) : pyTakeLast n l <:+ l := by
  unfold pyTakeLast
  split
  · exact List.suffix_rfl
  · exact List.drop_suffix _ _

lemma pyTakeLast_length (n : Nat) (l : List α) (hn : 1 ≤ n) :
    (pyTakeLast n l).length = min n l.length := by
  unfold pyTakeLast
  rw [if_neg (by omega)]
  rw [List.length_drop]
  omega

lemma pyTakeLast_ne_nil (n : Nat) (l : List α) (hn : 1 ≤ n) (hl : l ≠ []) :
    pyTakeLast n l ≠ [] := by
  intro hcon
  have h1 := pyTakeLast_length n l hn
  rw [hcon] at h1
  have h2 : 0 < l.length := List.length_pos.mpr hl
  simp only [List.length_nil] at h1
  omega

lemma pyTakeLast_getLast? (n : Nat) (l : List α) (hn : 1 ≤ n)
    (hl : l ≠ []) : (pyTakeLast n l).getLast? = l.getLast? := by
  have hne := pyTakeLast_ne_nil n l hn hl
  obtain ⟨t, ht⟩ := pyTakeLast_suffix n l
  have h2 : (t ++ pyTakeLast n l).getLast? = (pyTakeLast n l).getLast? :=
    List.getLast?_append_of_ne_nil t hne
  rw [ht] at h2
  exact h2.symm

lemma isChain_tail {d : List (Str × Comment)} {x : Str} {xs : List Str}
    (h : isChain d (x :: xs) = true) : isChain d xs = true := by
  cases xs with
  | nil => rfl
  | cons y ys =>
    rw [isChain, Bool.and_eq_true] at h
    exact h.2

lemma isChain_append_left {d : List (Str × Comment)} :
    ∀ (t s : List Str), isChain d (t ++ s) = true → isChain d s = true := by
  intro t
  induction t with
  | nil => intro s h; simpa using h
  | cons a as ih =>
    intro s h
    exact ih s (isChain_tail (by simpa using h))

lemma isChain_suffix {d : List (Str × Comment)} {s l : List Str}
    (hs : s <:+ l) (h : isChain d l = true) : isChain d s = true := by
  obtain ⟨t, ht⟩ := hs
  refine isChain_append_left t s ?_
  rw [ht]
  exact h

lemma isChain_append {d : List (Str × Comment)} {p : List Str} {x c : Str}
    {cc : Comment} (hch : isChain d p = true) (hlast : p.getLast? = some x)
    (hlk : dlookup d c = some cc) (hpar : cc.parent_id = x) :
    isChain d (p ++ [c]) = true := by
  induction p with
  | nil => simp at hlast
  | cons y ys ih =>
    cases ys with
    | nil =>
      have hx : y = x := by simpa using hlast
      have hgoal : ([y] ++ [c]) = y :: c :: [] := by simp
      rw [hgoal, isChain, hlk]
      simp [hpar, hx, isChain]
    | cons z zs =>
      rw [isChain, Bool.and_eq_true] at hch
      have hlast2 : (z :: zs).getLast? = some x := by
        rw [← hlast, List.getLast?_cons_cons]
      have h2 := ih hch.2 hlast2
      have hgoal : (y :: z :: zs) ++ [c] = y :: z :: (zs ++ [c]) := by simp
      rw [hgoal, isChain, Bool.and_eq_true]
      refine ⟨hch.1, ?_⟩
      have h3 : (z :: zs) ++ [c] = z :: (zs ++ [c]) := by simp
      rw [← h3]
      exact h2

end PathBuilderLemmas

section RoundLemmas

/-- Every path the inner child loop appends has the window-plus-child
shape. -/
lemma processChildren_shape {pd : Nat} {p : List Str} :
    ∀ (cs seen : List Str) (acc : List (List Str)) (q : List Str),
      q ∈ (processChildren pd p cs seen acc).2 →
      q ∈ acc ∨ ∃ c, c ∈ cs ∧ q = pyTakeLast pd p ++ [c] := by
  intro cs
  induction cs with
  | nil => intro seen acc q h; exact Or.inl h
  | cons c cs ih =>
    intro seen acc q h
    rw [processChildren] at h
    by_cases hc : seen.contains c
    · rw [if_pos hc] at h
      rcases ih _ _ _ h with h1 | ⟨c2, hc2, he⟩
      · exact Or.inl h1
      · exact Or.inr ⟨c2, List.mem_cons_of_mem c hc2, he⟩
    · rw [if_neg hc] at h
      rcases ih _ _ _ h with h1 | ⟨c2, hc2, he⟩
      · rcases List.mem_append.mp h1 with h2 | h2
        · exact Or.inl h2
        · refine Or.inr ⟨c, List.mem_cons_self c cs, ?_⟩
          simpa using h2
      · exact Or.inr ⟨c2, List.mem_cons_of_mem c hc2, he⟩

/-- Every path produced by one round extends a work-list path with one of
its last element's children. -/
lemma roundStep_shape {ch : Str → List Str} {pd : Nat} :
    ∀ (paths : List (List Str)) (seen : List Str) st,
      roundStep ch pd paths seen = some st →
      ∀ q ∈ st.2, ∃ p last, p ∈ paths ∧ p.getLast? = some last ∧
        ∃ c, c ∈ ch last ∧ q = pyTakeLast pd p ++ [c] := by
  intro paths
  induction paths with
  | nil =>
    intro seen st h q hq
    rw [roundStep] at h
    rw [← Option.some_inj.mp h] at hq
    simp at hq
  | cons p ps ih =>
    intro seen st h q hq
    rw [roundStep] at h
    cases hl : p.getLast? with
    | none => rw [hl] at h; simp at h
    | some last =>
      rw [hl] at h
      simp only at h
      cases hrec : roundStep ch pd ps
          (processChildren pd p (ch last) seen []).1 with
      | none => rw [hrec] at h; simp at h
      | some res =>
        rw [hrec] at h
        have hst : st = (res.1, (processChildren pd p (ch last) seen []).2
            ++ res.2) := by
          rw [← Option.some_inj.mp h]
        rw [hst] at hq
        rcases List.mem_append.mp hq with h1 | h1
        · rcases processChildren_shape _ _ _ _ h1 with h2 | ⟨c, hc, he⟩
          · simp at h2
          · exact ⟨p, last, List.mem_cons_self p ps, hl, c, hc, he⟩
        · obtain ⟨p2, last2, hp2, hl2, c, hc, he⟩ := ih _ _ hrec q h1
          exact ⟨p2, last2, List.mem_cons_of_mem p hp2, hl2, c, hc, he⟩

/-- The invariants of every yielded path: length between 2 and
`parent_depth + 1`, and each element after the first is a direct reply to
its predecessor. -/
lemma loopO_paths_sound {d : List (Str × Comment)} {pd : Nat}
    (hpd : 1 ≤ pd) (hnd : (dkeys d).Nodup) :
    ∀ (fuel : Nat) (seen : List Str) (paths : List (List Str))
      (out : List (List Str)),
      loopO (childrenOf d) pd fuel seen paths = some out →
      (∀ p ∈ paths, p ≠ [] ∧ isChain d p = true) →
      ∀ q ∈ out, 2 ≤ q.length ∧ q.length ≤ pd + 1 ∧ isChain d q = true := by
  intro fuel
  induction fuel with
  | zero =>
    intro seen paths out h hinv q hq
    cases paths with
    | nil =>
      rw [loopO] at h
      rw [← Option.some_inj.mp h] at hq
      simp at hq
    | cons p ps => rw [loopO] at h; simp at h
  | succ fuel ih =>
    intro seen paths out h hinv q hq
    cases paths with
    | nil =>
      rw [loopO] at h
      rw [← Option.some_inj.mp h] at hq
      simp at hq
    | cons p ps =>
      rw [loopO] at h
      cases hrs : roundStep (childrenOf d) pd (p :: ps) seen with
      | none => rw [hrs] at h; simp at h
      | some st =>
        rw [hrs] at h
        simp only at h
        cases hrec : loopO (childrenOf d) pd fuel st.1 st.2 with
        | none => rw [hrec] at h; simp at h
        | some rest =>
          rw [hrec] at h
          have hout : out = st.2 ++ rest := by
            rw [← Option.some_inj.mp h]
          -- every new path extends a work-list path with a child
          have hnew : ∀ q2 ∈ st.2, 2 ≤ q2.length ∧ q2.length ≤ pd + 1 ∧
              isChain d q2 = true ∧ q2 ≠ [] := by
            intro q2 hq2
            obtain ⟨p2, last, hp2, hlast, c, hc, he⟩ :=
              roundStep_shape _ _ _ hrs q2 hq2
            obtain ⟨hpne, hpch⟩ := hinv p2 hp2
            have hlen := pyTakeLast_length pd p2 hpd
            have hplen : 1 ≤ p2.length := List.length_pos.mpr hpne
            obtain ⟨cc, hccmem, hccpar⟩ := childrenOf_mem hc
            have hlk := dlookup_eq_of_mem hnd hccmem
            have hchain : isChain d (pyTakeLast pd p2 ++ [c]) = true := by
              refine isChain_append ?_ ?_ hlk hccpar
              · exact isChain_suffix (pyTakeLast_suffix pd p2) hpch
              · rw [pyTakeLast_getLast? pd p2 hpd hpne]
                exact hlast
            refine ⟨?_, ?_, by rw [he]; exact hchain, by rw [he]; simp⟩
            · rw [he, List.length_append, hlen]
              simp only [List.length_cons, List.length_nil]
              omega
            · rw [he, List.length_append, hlen]
              simp only [List.length_cons, List.length_nil]
              omega
          rw [hout] at hq
          rcases List.mem_append.mp hq with h1 | h1
          · obtain ⟨ha, hb, hcc, _⟩ := hnew q h1
            exact ⟨ha, hb, hcc⟩
          · refine ih st.1 st.2 rest hrec ?_ q h1
            intro p2 hp2
            obtain ⟨_, _, hcc, hne⟩ := hnew p2 hp2
            exact ⟨hne, hcc⟩

end RoundLemmas

/-- C4: every path yielded by `linear_paths` (for positive `parent_depth`
and any comment dict) has length at least 2 and at most
`parent_depth + 1`, and each element after the first names a comment whose
`parent_id` is the preceding element. -/
theorem linear_paths_invariants (d : List (Str × Comment)) (pd : Nat)
    (out : List (List Str)) (hpd : 1 ≤ pd) (hnd : (dkeys d).Nodup)
    (h : linear_paths d pd = some out) :
    ∀ q ∈ out, 2 ≤ q.length ∧ q.length ≤ pd + 1 ∧ isChain d q = true := by
  refine loopO_paths_sound hpd hnd _ _ _ _ h ?_
  intro p hp
  obtain ⟨r, _, hr⟩ := List.mem_map.mp hp
  constructor
  · rw [← hr]; simp
  · rw [← hr]; rfl

/-- Witness for C4 on the concrete chain: the second yielded path
`[A, B, C]` has length 3 within the bound `2 + 1` and is a reply chain. -/
theorem linear_paths_invariants_witness :
    2 ≤ (["A".toList, "B".toList, "C".toList] : List Str).length ∧
    (["A".toList, "B".toList, "C".toList] : List Str).length ≤ 2 + 1 ∧
    isChain chainDict ["A".toList, "B".toList, "C".toList] = true :=
  linear_paths_invariants chainDict 2
    [["A".toList, "B".toList],
     ["A".toList, "B".toList, "C".toList],
     ["B".toList, "C".toList, "D".toList]]
    (by decide) (by decide) rfl
    ["A".toList, "B".toList, "C".toList] (by decide)

section TerminationLemmas

/-- The inner child loop only grows `seen`, only with elements of the child
list, and grows it strictly whenever it appends a new path. -/
lemma processChildren_seen {pd : Nat} {p : List Str} :
    ∀ (cs seen : List Str) (acc : List (List Str)),
      (∀ x ∈ seen, x ∈ (processChildren pd p cs seen acc).1) ∧
      (∀ x ∈ (processChildren pd p cs seen acc).1, x ∈ seen ∨ x ∈ cs) ∧
      ((processChildren pd p cs seen acc).2 = acc ∨
        ∃ x, x ∈ (processChildren pd p cs seen acc).1 ∧ x ∉ seen ∧
          x ∈ cs) := by
  intro cs
  induction cs with
  | nil =>
    intro seen acc
    exact ⟨fun x hx => hx, fun x hx => Or.inl hx, Or.inl rfl⟩
  | cons c cs ih =>
    intro seen acc
    rw [processChildren]
    by_cases hc : seen.contains c
    · rw [if_pos hc]
      obtain ⟨h1, h2, h3⟩ := ih seen acc
      refine ⟨h1, fun x hx => ?_, ?_⟩
      · rcases h2 x hx with h | h
        · exact Or.inl h
        · exact Or.inr (List.mem_cons_of_mem c h)
      · rcases h3 with h | ⟨x, hx1, hx2, hx3⟩
        · exact Or.inl h
        · exact Or.inr ⟨x, hx1, hx2, List.mem_cons_of_mem c hx3⟩
    · rw [if_neg hc]
      obtain ⟨h1, h2, h3⟩ := ih (c :: seen) (acc ++ [pyTakeLast pd p ++ [c]])
      have hcm : c ∉ seen := by
        simpa using hc
      refine ⟨fun x hx => h1 x (List.mem_cons_of_mem c hx),
        fun x hx => ?_, ?_⟩
      · rcases h2 x hx with h | h
        · rcases List.mem_cons.mp h with h4 | h4
          · exact Or.inr (h4 ▸ List.mem_cons_self c cs)
          · exact Or.inl h4
        · exact Or.inr (List.mem_cons_of_mem c h)
      · exact Or.inr ⟨c, h1 c (List.mem_cons_self c seen), hcm,
          List.mem_cons_self c cs⟩

/-- One round never fails on a work-list of nonempty paths. -/
lemma roundStep_isSome {ch : Str → List Str} {pd : Nat} :
    ∀ (paths : List (List Str)) (seen : List Str),
      (∀ p ∈ paths, p ≠ []) →
      ∃ st, roundStep ch pd paths seen = some st := by
  intro paths
  induction paths with
  | nil => intro seen _; exact ⟨(seen, []), rfl⟩
  | cons p ps ih =>
    intro seen hne
    cases hl : p.getLast? with
    | none =>
      have := List.getLast?_eq_none_iff.mp hl
      exact absurd this (hne p (List.mem_cons_self p ps))
    | some last =>
      obtain ⟨st2, hst2⟩ := ih (processChildren pd p (ch last) seen []).1
        (fun q hq => hne q (List.mem_cons_of_mem p hq))
      refine ⟨(st2.1, (processChildren pd p (ch last) seen []).2 ++ st2.2), ?_⟩
      rw [roundStep, hl]
      simp only
      rw [hst2]

/-- One round only grows `seen` with keys of the dict, and grows it
strictly whenever it yields at least one new path. -/
lemma roundStep_seen {d : List (Str × Comment)} {pd : Nat} :
    ∀ (paths : List (List Str)) (seen : List Str) st,
      roundStep (childrenOf d) pd paths seen = some st →
      (∀ x ∈ seen, x ∈ st.1) ∧
      (∀ x ∈ st.1, x ∈ seen ∨ x ∈ dkeys d) ∧
      (st.2 = [] ∨ ∃ x, x ∈ st.1 ∧ x ∉ seen ∧ x ∈ dkeys d) := by
  intro paths
  induction paths with
  | nil =>
    intro seen st h
    rw [roundStep] at h
    rw [← Option.some_inj.mp h]
    exact ⟨fun x hx => hx, fun x hx => Or.inl hx, Or.inl rfl⟩
  | cons p ps ih =>
    intro seen st h
    rw [roundStep] at h
    cases hl : p.getLast? with
    | none => rw [hl] at h; simp at h
    | some last =>
      rw [hl] at h
      simp only at h
      cases hrec : roundStep (childrenOf d) pd ps
          (processChildren pd p (childrenOf d last) seen []).1 with
      | none => rw [hrec] at h; simp at h
      | some res =>
        rw [hrec] at h
        have hst : st = (res.1,
            (processChildren pd p (childrenOf d last) seen []).2 ++ res.2) := by
          rw [← Option.some_inj.mp h]
        obtain ⟨hp1, hp2, hp3⟩ :=
          @processChildren_seen pd p (childrenOf d last) seen []
        obtain ⟨hr1, hr2, hr3⟩ := ih _ _ hrec
        rw [hst]
        refine ⟨fun x hx => hr1 x (hp1 x hx), fun x hx => ?_, ?_⟩
        · rcases hr2 x hx with hx2 | hx2
          · rcases hp2 x hx2 with hx3 | hx3
            · exact Or.inl hx3
            · exact Or.inr (childrenOf_sub_keys hx3)
          · exact Or.inr hx2
        · simp only
          rcases hp3 with hpe | ⟨x, hx1, hx2, hx3⟩
          · rcases hr3 with hre | ⟨x, hx1, hx2, hx3⟩
            · rw [hpe, hre]
              exact Or.inl rfl
            · refine Or.inr ⟨x, hx1, fun hm => hx2 (hp1 x hm), hx3⟩
          · exact Or.inr ⟨x, hr1 x hx1, hx2, childrenOf_sub_keys hx3⟩

/-- The while loop succeeds once the fuel exceeds the number of not yet
seen keys. -/
lemma loopO_isSome {d : List (Str × Comment)} {pd : Nat} :
    ∀ (fuel : Nat) (seen : List Str) (paths : List (List Str)),
      (∀ p ∈ paths, p ≠ []) →
      ((dkeys d).toFinset \ seen.toFinset).card < fuel →
      (loopO (childrenOf d) pd fuel seen paths).isSome = true := by
  intro fuel
  induction fuel with
  | zero => intro seen paths _ hcard; omega
  | succ fuel ih =>
    intro seen paths hne hcard
    cases paths with
    | nil => rw [loopO]; rfl
    | cons p ps =>
      obtain ⟨st, hst⟩ := roundStep_isSome (p :: ps) seen hne
      rw [loopO, hst]
      simp only
      have hne2 : ∀ q ∈ st.2, q ≠ [] := by
        intro q hq
        obtain ⟨_, _, _, _, c, _, he⟩ := roundStep_shape _ _ _ hst q hq
        rw [he]
        simp
      obtain ⟨hs1, hs2, hs3⟩ := roundStep_seen _ _ _ hst
      rcases hs3 with hempty | ⟨x, hx1, hx2, hx3⟩
      · rw [hempty, loopO]
        rfl
      · have hsub : ((dkeys d).toFinset \ st.1.toFinset) ⊆
            ((dkeys d).toFinset \ seen.toFinset) := by
          refine Finset.sdiff_subset_sdiff (Finset.Subset.refl _) ?_
          intro y hy
          rw [List.mem_toFinset] at hy ⊢
          exact hs1 y hy
        have hstrict : ((dkeys d).toFinset \ st.1.toFinset) ⊂
            ((dkeys d).toFinset \ seen.toFinset) := by
          rw [Finset.ssubset_iff_of_subset hsub]
          refine ⟨x, ?_, ?_⟩
          · rw [Finset.mem_sdiff, List.mem_toFinset, List.mem_toFinset]
            exact ⟨hx3, hx2⟩
          · intro hcon
            rw [Finset.mem_sdiff, List.mem_toFinset, List.mem_toFinset] at hcon
            exact hcon.2 hx1
        have hlt := Finset.card_lt_card hstrict
        have := ih st.1 st.2 hne2 (by omega)
        cases hrec : loopO (childrenOf d) pd fuel st.1 st.2 with
        | none => rw [hrec] at this; simp at this
        | some rest => rfl

end TerminationLemmas

/-- C5: `linear_paths` terminates on every finite comment dict — even one
whose parent references form cycles — returning a (finite) list of paths
rather than raising or diverging; concretely, on the malformed set with the
cycle X → Y → X beside the chain R → S it returns exactly the path
`[R, S]`, visiting no comment twice. -/
theorem linear_paths_terminates :
    (∀ (d : List (Str × Comment)) (pd : Nat),
      (linear_paths d pd).isSome = true) ∧
    linear_paths cycleDict 2 = some [["R".toList, "S".toList]] := by
  constructor
  · intro d pd
    rw [linear_paths]
    refine loopO_isSome _ _ _ ?_ ?_
    · intro p hp
      obtain ⟨r, _, hr⟩ := List.mem_map.mp hp
      rw [← hr]
      simp
    · have h1 : ((dkeys d).toFinset \ (pySet (rootsOf d)).toFinset).card ≤
          (dkeys d).toFinset.card :=
        Finset.card_le_card (Finset.sdiff_subset)
      have h2 : (dkeys d).toFinset.card ≤ (dkeys d).length :=
        List.toFinset_card_le _
      have h3 : (dkeys d).length = d.length := List.length_map _ _
      omega
  · rfl

/-- C6: the train/test assignment is the stated pure function of the
thread id: `v = (1 + md5(thread_id) mod 4096) / 4096` always lies in
`(0, 1]`, the tag is `"train"` exactly when `v < train_split`, and the
assignment of an example depends only on its `thread_id` value (so two
examples sharing a `thread_id` — in any stream position — receive the same
assignment, and repeated invocations agree). -/
theorem split_assignment_spec (ts : ℚ) (tid : Bytes) (ex1 ex2 : TFExample) :
    0 < split_value 4096 tid ∧
    split_value 4096 tid ≤ 1 ∧
    split_value 4096 tid = (1 + (md5Int tid % 4096 : Nat) : ℚ) / 4096 ∧
    splitTag ts 4096 tid =
      (if split_value 4096 tid < ts then "train".toList else "test".toList) ∧
    (dlookup ex1 "thread_id".toList = dlookup ex2 "thread_id".toList →
      processSplit ts 4096 ex1 = processSplit ts 4096 ex2) := by
  have hmod : md5Int tid % 4096 < 4096 := Nat.mod_lt _ (by norm_num)
  refine ⟨?_, ?_, rfl, rfl, ?_⟩
  · rw [split_value]
    positivity
  · rw [split_value]
    rw [div_le_one (by norm_num)]
    have : ((md5Int tid % 4096 : Nat) : ℚ) ≤ 4095 := by
      exact_mod_cast Nat.le_of_lt_succ hmod
    push_cast
    linarith
  · intro h
    simp only [processSplit]
    rw [h]

/-- Witness for C6 at thread id `"abc"` (UTF-8): its bucket value is
`3955/4096`, which is not below the default `train_split = 9/10`, and the
sample example is consistently assigned. -/
theorem split_assignment_spec_witness :
    0 < split_value 4096 (utf8Encode "abc".toList) ∧
    split_value 4096 (utf8Encode "abc".toList) ≤ 1 ∧
    split_value 4096 (utf8Encode "abc".toList) =
      (1 + (md5Int (utf8Encode "abc".toList) % 4096 : Nat) : ℚ) / 4096 ∧
    splitTag ((9 : ℚ)/10) 4096 (utf8Encode "abc".toList) =
      (if split_value 4096 (utf8Encode "abc".toList) < (9 : ℚ)/10 then
        "train".toList else "test".toList) ∧
    processSplit ((9 : ℚ)/10) 4096 sampleSplitExample =
      processSplit ((9 : ℚ)/10) 4096 sampleSplitExample := by
  have h := split_assignment_spec ((9 : ℚ)/10) (utf8Encode "abc".toList)
    sampleSplitExample sampleSplitExample
  exact ⟨h.1, h.2.1, h.2.2.1, h.2.2.2.1, h.2.2.2.2 rfl⟩

set_option maxRecDepth 100000 in
/-- Validation of the MD5 embedding against the standard test vector:
`md5("abc") = 900150983cd24fb0d6963f7d28e17f72`. -/
lemma md5Int_abc :
    md5Int (utf8Encode "abc".toList) = 0x900150983cd24fb0d6963f7d28e17f72 := by
  decide

/-- The thread id `"abc"` falls in bucket 3955 of 4096 and is assigned to
the test set under the default `train_split = 9/10`. -/
lemma splitTag_abc :
    splitTag ((9 : ℚ)/10) 4096 (utf8Encode "abc".toList) = "test".toList := by
  rw [splitTag, split_value, md5Int_abc, if_neg]
  norm_num

section ExampleGenLemmas

/-- A surviving pair cannot have a `[deleted]` body in either slot. -/
lemma keepPair_not_deleted {d : List (Str × Comment)} {ml : Nat}
    {p : List Str} (h : keepPair d ml p = some true) :
    ∃ r c, respOf d p = some r ∧ ctxOf d p = some c ∧
      r.body ≠ "[deleted]".toList ∧ c.body ≠ "[deleted]".toList := by
  unfold keepPair at h
  cases hr : respOf d p with
  | none => rw [hr] at h; simp at h
  | some r =>
    cases hc : ctxOf d p with
    | none => rw [hr, hc] at h; simp at h
    | some c =>
      rw [hr, hc] at h
      have hb := Option.some_inj.mp h
      rw [Bool.and_eq_true, Bool.not_eq_true', Bool.not_eq_true'] at hb
      have hrd : (r.body == "[deleted]".toList) = false := by
        have := hb.1
        rw [should_skip] at this
        simp only [Bool.or_eq_false_iff] at this
        exact this.1.2.1
      have hcd : (c.body == "[deleted]".toList) = false := by
        have := hb.2
        rw [should_skip] at this
        simp only [Bool.or_eq_false_iff] at this
        exact this.1.2.1
      exact ⟨r, c, rfl, rfl, beq_eq_false_iff_ne.mp hrd,
        beq_eq_false_iff_ne.mp hcd⟩

/-- The per-path loop of `create_examples` emits exactly one example per
path whose pair survives the filter, in order, and nothing for a skipped
pair. -/
lemma processPaths_eq {d : List (Str × Comment)} {pd ml : Nat} :
    ∀ (ps : List (List Str)) (out : List TFExample),
      processPaths d pd ml ps = some out →
      (ps.filter (fun p => keepPair d ml p == some true)).mapM
        (emitOne d pd) = some out := by
  intro ps
  induction ps with
  | nil =>
    intro out h
    rw [processPaths] at h
    rw [List.filter_nil, List.mapM_nil]
    exact h
  | cons p rest ih =>
    intro out h
    rw [processPaths] at h
    cases h1 : pyNeg p 1 with
    | none => rw [h1] at h; simp at h
    | some rid =>
      rw [h1] at h
      simp only at h
      cases h2 : dlookup d rid with
      | none => rw [h2] at h; simp at h
      | some resp =>
        rw [h2] at h
        simp only at h
        cases h3 : pyNeg p 2 with
        | none => rw [h3] at h; simp at h
        | some cid =>
          rw [h3] at h
          simp only at h
          cases h4 : dlookup d cid with
          | none => rw [h4] at h; simp at h
          | some ctx =>
            rw [h4] at h
            simp only at h
            have hresp : respOf d p = some resp := by
              rw [respOf, h1]
              exact h2
            have hctx : ctxOf d p = some ctx := by
              rw [ctxOf, h3]
              exact h4
            have hkeep : keepPair d ml p =
                some (!(should_skip resp ml) && !(should_skip ctx ml)) := by
              rw [keepPair, hresp, hctx]
            by_cases hskip : (should_skip resp ml || should_skip ctx ml) = true
            · rw [if_pos hskip] at h
              have hkf : (keepPair d ml p == some true) = false := by
                rw [hkeep]
                rcases Bool.or_eq_true_iff.mp hskip with h5 | h5 <;>
                  simp [h5]
              rw [List.filter_cons, hkf]
              simp only [Bool.false_eq_true, if_false]
              exact ih out h
            · rw [if_neg hskip] at h
              have hor : (should_skip resp ml || should_skip ctx ml) = false :=
                Bool.not_eq_true _ ▸ Bool.eq_false_iff.mpr hskip
              rw [Bool.or_eq_false_iff] at hor
              cases h5 : buildExample d pd p ctx resp with
              | none => rw [h5] at h; simp at h
              | some ex =>
                rw [h5] at h
                simp only at h
                cases h6 : processPaths d pd ml rest with
                | none => rw [h6] at h; simp at h
                | some rest2 =>
                  rw [h6] at h
                  have hout : out = ex :: rest2 :=
                    (Option.some_inj.mp h).symm
                  have hkt : (keepPair d ml p == some true) = true := by
                    rw [hkeep]
                    simp [hor.1, hor.2]
                  rw [List.filter_cons, hkt]
                  simp only [if_true]
                  rw [List.mapM_cons]
                  have hemit : emitOne d pd p = some ex := by
                    rw [emitOne, hresp, hctx]
                    exact h5
                  rw [hemit, ih rest2 h6, hout]
                  rfl

end ExampleGenLemmas

/-- C7: under a successful run, an example is emitted for exactly those
linear paths whose response (last element) and context (second-to-last)
both pass `_should_skip` — a path failing either check contributes nothing
— and a comment whose body is exactly `[deleted]` never survives as
response or context. -/
theorem create_examples_filter_spec (thread : List Comment) (pd ml : Nat)
    (out : List TFExample) (h : create_examples thread pd ml = some out) :
    ∃ lp, linear_paths (threadDict thread) pd = some lp ∧
      ((lp.filter (fun p => keepPair (threadDict thread) ml p == some true)).mapM
        (emitOne (threadDict thread) pd)) = some out ∧
      (∀ p ∈ lp, keepPair (threadDict thread) ml p = some true →
        ∃ r c, respOf (threadDict thread) p = some r ∧
          ctxOf (threadDict thread) p = some c ∧
          r.body ≠ "[deleted]".toList ∧ c.body ≠ "[deleted]".toList) := by
  rw [create_examples] at h
  cases hlp : linear_paths (threadDict thread) pd with
  | none => rw [hlp] at h; simp at h
  | some lp =>
    rw [hlp] at h
    simp only at h
    exact ⟨lp, rfl, processPaths_eq lp out h,
      fun p _ hk => keepPair_not_deleted hk⟩

section FieldNameLemmas

lemma digitChar_toNat {d : Nat} (h : d < 10) :
    (digitChar d).toNat - 48 = d := by
  interval_cases d <;> rfl

lemma digitsAux_foldr :
    ∀ (fuel n : Nat), n ≤ fuel →
      (digitsAux fuel n).foldr
        (fun d a => 10 * a + ((digitChar d).toNat - 48)) 0 = n := by
  intro fuel
  induction fuel with
  | zero =>
    intro n hn
    have : n = 0 := by omega
    rw [this]
    rfl
  | succ fuel ih =>
    intro n hn
    cases n with
    | zero => rfl
    | succ n =>
      rw [digitsAux, List.foldr_cons]
      have hdiv : (n + 1) / 10 ≤ fuel := by
        have := Nat.div_lt_self (Nat.succ_pos n) (by norm_num : 1 < 10)
        omega
      rw [ih _ hdiv, digitChar_toNat (Nat.mod_lt _ (by norm_num))]
      omega

lemma parseNat_natToStr (n : Nat) : parseNat (natToStr n) = n := by
  by_cases h : n = 0
  · rw [h]; rfl
  · rw [natToStr, if_neg h, parseNat, List.foldl_reverse, List.foldr_map]
    exact digitsAux_foldr n n (Nat.le_refl n)

lemma natToStr_inj {m n : Nat} (h : natToStr m = natToStr n) : m = n := by
  have h1 := parseNat_natToStr m
  rw [h, parseNat_natToStr] at h1
  exact h1.symm

lemma ctxName_inj {i j : Nat} (h : ctxName i = ctxName j) : i = j := by
  refine natToStr_inj ?_
  have h8 := congrArg (fun l => List.drop 8 l) h
  simp only [ctxName] at h8
  have hd : ∀ s : Str, ("context/".toList ++ s).drop 8 = s := by
    intro s
    rfl
  rw [hd, hd] at h8
  exact h8

lemma ctxName_ne {i j : Nat} (h : i ≠ j) : (ctxName i == ctxName j) = false :=
  beq_eq_false_iff_ne.mpr (fun hc => h (ctxName_inj hc))

lemma pyNeg_some_le {l : List α} {k : Nat} {x : α}
    (h : pyNeg l k = some x) : k ≤ l.length := by
  rw [pyNeg] at h
  by_cases hk : k ≤ l.length
  · exact hk
  · rw [if_neg hk] at h; simp at h

lemma pyNeg_none_lt {l : List α} {k : Nat} (hk : 1 ≤ k)
    (h : pyNeg l k = none) : l.length < k := by
  rw [pyNeg] at h
  by_cases hle : k ≤ l.length
  · rw [if_pos hle] at h
    rw [List.get?_eq_none] at h
    omega
  · omega

end FieldNameLemmas

section BuildExampleLemmas

/-- `_add_string_feature` on an absent feature name appends one new
single-valued entry. -/
lemma addStringFeature_fresh {ex : TFExample} {name : Str} {v : Str}
    (h : (ex.any (fun e => e.1 == name)) = false) :
    addStringFeature ex name v = ex ++ [(name, [utf8Encode v])] := by
  rw [addStringFeature, if_neg (by simp [h])]

/-- The extra-context walk appends exactly one single-valued `context/j`
field per ancestor, for `j` counting up from `i`, stopping at the loop
bound or at the path's start, whichever comes first. -/
lemma addExtra_eq {d : List (Str × Comment)} {p : List Str} :
    ∀ (n i : Nat) (ex ex2 : TFExample),
      addExtra d p ex i n = some ex2 →
      (∀ j, i ≤ j → (ex.any (fun e => e.1 == ctxName j)) = false) →
      ∃ extras, ex2 = ex ++ extras ∧
        extras.length = min n (p.length - 2 - i) ∧
        ∀ m, m < extras.length → ∃ cid cc, pyNeg p (3 + i + m) = some cid ∧
          dlookup d cid = some cc ∧
          extras.get? m = some (ctxName (i + m), [utf8Encode cc.body]) := by
  intro n
  induction n with
  | zero =>
    intro i ex ex2 h _
    rw [addExtra] at h
    refine ⟨[], by rw [← Option.some_inj.mp h]; simp, by simp, ?_⟩
    intro m hm
    simp at hm
  | succ n ih =>
    intro i ex ex2 h hfresh
    rw [addExtra] at h
    cases h1 : pyNeg p (3 + i) with
    | none =>
      rw [h1] at h
      have hlt := pyNeg_none_lt (by omega) h1
      refine ⟨[], by rw [← Option.some_inj.mp h]; simp, ?_, ?_⟩
      · simp only [List.length_nil]
        omega
      · intro m hm
        simp at hm
    | some cid =>
      rw [h1] at h
      simp only at h
      cases h2 : dlookup d cid with
      | none => rw [h2] at h; simp at h
      | some cc =>
        rw [h2] at h
        simp only at h
        have hle := pyNeg_some_le h1
        rw [addStringFeature_fresh (hfresh i (Nat.le_refl i))] at h
        have hfresh2 : ∀ j, i + 1 ≤ j →
            (((ex ++ [(ctxName i, [utf8Encode cc.body])]).any
              (fun e => e.1 == ctxName j)) = false) := by
          intro j hj
          rw [List.any_append]
          have hne : (ctxName i == ctxName j) = false :=
            ctxName_ne (by omega)
          simp [hfresh j (by omega), hne]
        obtain ⟨extras, he1, he2, he3⟩ := ih (i + 1) _ ex2 h hfresh2
        refine ⟨(ctxName i, [utf8Encode cc.body]) :: extras, ?_, ?_, ?_⟩
        · rw [he1]
          simp
        · simp only [List.length_cons, he2]
          omega
        · intro m hm
          cases m with
          | zero =>
            refine ⟨cid, cc, by simpa using h1, h2, ?_⟩
            simp
          | succ m =>
            simp only [List.length_cons] at hm
            obtain ⟨cid2, cc2, hc1, hc2, hc3⟩ := he3 m (by omega)
            refine ⟨cid2, cc2, ?_, hc2, ?_⟩
            · have : 3 + i + (m + 1) = 3 + (i + 1) + m := by omega
              rw [this]
              exact hc1
            · have : i + (m + 1) = i + 1 + m := by omega
              rw [this]
              simpa using hc3

/-- The six fixed fields of `buildExample`, before the extra-context
walk. -/
lemma buildExample_eq (d : List (Str × Comment)) (pd : Nat) (p : List Str)
    (c r : Comment) :
    buildExample d pd p c r = addExtra d p
      [("subreddit".toList, [utf8Encode r.subreddit]),
       ("thread_id".toList, [utf8Encode r.thread_id]),
       ("context_author".toList, [utf8Encode c.author]),
       ("response_author".toList, [utf8Encode r.author]),
       ("context".toList, [utf8Encode c.body]),
       ("response".toList, [utf8Encode r.body])] 0 (pd - 1) := rfl

/-- Every element of a successful `mapM` run comes from applying the
function to some input element. -/
lemma mapM_mem {α β : Type} {f : α → Option β} :
    ∀ (l : List α) (out : List β), l.mapM f = some out →
      ∀ b ∈ out, ∃ a ∈ l, f a = some b := by
  intro l
  induction l with
  | nil =>
    intro out h b hb
    rw [List.mapM_nil] at h
    have hout : out = [] := (Option.some_inj.mp h).symm
    rw [hout] at hb
    simp at hb
  | cons a l ih =>
    intro out h b hb
    rw [List.mapM_cons] at h
    cases h1 : f a with
    | none => rw [h1] at h; simp at h
    | some b0 =>
      rw [h1] at h
      cases h2 : l.mapM f with
      | none => rw [h2] at h; simp at h
      | some rest =>
        rw [h2] at h
        have hout : out = b0 :: rest := by
          have := Option.some_inj.mp (by simpa using h)
          rw [← this]
        rw [hout] at hb
        rcases List.mem_cons.mp hb with hb1 | hb1
        · exact ⟨a, List.mem_cons_self a l, by rw [h1, hb1]⟩
        · obtain ⟨a2, ha2, hfa2⟩ := ih rest h2 b hb1
          exact ⟨a2, List.mem_cons_of_mem a ha2, hfa2⟩

end BuildExampleLemmas

/-- The six fixed feature names never collide with any `context/j` name. -/
lemma sixNames_fresh (r c : Comment) (j : Nat) :
    (([("subreddit".toList, [utf8Encode r.subreddit]),
       ("thread_id".toList, [utf8Encode r.thread_id]),
       ("context_author".toList, [utf8Encode c.author]),
       ("response_author".toList, [utf8Encode r.author]),
       ("context".toList, [utf8Encode c.body]),
       ("response".toList, [utf8Encode r.body])] : TFExample).any
      (fun e => e.1 == ctxName j)) = false := rfl

/-- C9: every emitted example consists of the six fixed single-valued
UTF-8 fields (`subreddit`, `thread_id`, `context_author`,
`response_author`, `context`, `response`) followed by one `context/i`
field per available ancestor: `context/i` is present exactly for
`i < min (parent_depth - 1) (path length - 2)` — i.e. while `i` is within
the loop bound and the path has an element at reverse index `-3 - i` —
and holds that ancestor's body verbatim; every field of the example holds
exactly one byte-string value. -/
theorem create_examples_fields_spec (thread : List Comment) (pd ml : Nat)
    (out : List TFExample) (ex : TFExample)
    (h : create_examples thread pd ml = some out) (hex : ex ∈ out) :
    ∃ p r c, respOf (threadDict thread) p = some r ∧
      ctxOf (threadDict thread) p = some c ∧ 2 ≤ p.length ∧
      ∃ extras,
        ex = [("subreddit".toList, [utf8Encode r.subreddit]),
              ("thread_id".toList, [utf8Encode r.thread_id]),
              ("context_author".toList, [utf8Encode c.author]),
              ("response_author".toList, [utf8Encode r.author]),
              ("context".toList, [utf8Encode c.body]),
              ("response".toList, [utf8Encode r.body])] ++ extras ∧
        extras.length = min (pd - 1) (p.length - 2) ∧
        (∀ i, i < extras.length → ∃ cid cc, pyNeg p (3 + i) = some cid ∧
          dlookup (threadDict thread) cid = some cc ∧
          extras.get? i = some (ctxName i, [utf8Encode cc.body])) ∧
        (∀ f ∈ ex, f.2.length = 1) := by
  rw [create_examples] at h
  cases hlp : linear_paths (threadDict thread) pd with
  | none => rw [hlp] at h; simp at h
  | some lp =>
    rw [hlp] at h
    simp only at h
    have hmapM := processPaths_eq lp out h
    obtain ⟨p, _, hemit⟩ := mapM_mem _ out hmapM ex hex
    rw [emitOne] at hemit
    cases hr : respOf (threadDict thread) p with
    | none => rw [hr] at hemit; simp at hemit
    | some r =>
      cases hc : ctxOf (threadDict thread) p with
      | none => rw [hr, hc] at hemit; simp at hemit
      | some c =>
        rw [hr, hc] at hemit
        have hplen : 2 ≤ p.length := by
          rw [ctxOf] at hc
          cases h2 : pyNeg p 2 with
          | none => rw [h2] at hc; simp at hc
          | some cid => exact pyNeg_some_le h2
        have hemit2 : buildExample (threadDict thread) pd p c r =
            some ex := hemit
        rw [buildExample_eq] at hemit2
        obtain ⟨extras, he1, he2, he3⟩ := addExtra_eq (pd - 1) 0 _ ex hemit2
          (fun j _ => sixNames_fresh r c j)
        refine ⟨p, r, c, hr, hc, hplen, extras, he1, by simpa using he2,
          ?_, ?_⟩
        · intro i hi
          obtain ⟨cid, cc, hc1, hc2, hc3⟩ := he3 i hi
          exact ⟨cid, cc, by simpa using hc1, hc2, by simpa using hc3⟩
        · intro f hf
          rw [he1] at hf
          rcases List.mem_append.mp hf with h6 | hext
          · simp only [List.mem_cons, List.not_mem_nil, or_false] at h6
            rcases h6 with rfl | rfl | rfl | rfl | rfl | rfl <;> rfl
          · obtain ⟨m, hm⟩ := List.mem_iff_get?.mp hext
            have hmlt : m < extras.length := by
              by_contra hcon
              rw [List.get?_eq_none.mpr (by omega)] at hm
              simp at hm
            obtain ⟨cid, cc, _, _, hc3⟩ := he3 m hmlt
            rw [hm] at hc3
            rw [Option.some_inj.mp hc3]
            rfl

/-- Witness for C7 on the sample three-comment thread with
`parent_depth = 2`, `min_length = 3`: both generated pairs survive the
filter and are emitted in order. -/
theorem create_examples_filter_spec_witness :
    ∃ lp, linear_paths (threadDict sampleThread) 2 = some lp ∧
      ((lp.filter
        (fun p => keepPair (threadDict sampleThread) 3 p == some true)).mapM
        (emitOne (threadDict sampleThread) 2)) =
          some [sampleOut1, sampleOut2] ∧
      (∀ p ∈ lp, keepPair (threadDict sampleThread) 3 p = some true →
        ∃ r c, respOf (threadDict sampleThread) p = some r ∧
          ctxOf (threadDict sampleThread) p = some c ∧
          r.body ≠ "[deleted]".toList ∧ c.body ≠ "[deleted]".toList) :=
  create_examples_filter_spec sampleThread 2 3 [sampleOut1, sampleOut2] rfl

/-- Witness for C9 on the second sample example, whose path `[A, B, C]`
carries the single extra field `context/0`. -/
theorem create_examples_fields_spec_witness :
    ∃ p r c, respOf (threadDict sampleThread) p = some r ∧
      ctxOf (threadDict sampleThread) p = some c ∧ 2 ≤ p.length ∧
      ∃ extras,
        sampleOut2 = [("subreddit".toList, [utf8Encode r.subreddit]),
              ("thread_id".toList, [utf8Encode r.thread_id]),
              ("context_author".toList, [utf8Encode c.author]),
              ("response_author".toList, [utf8Encode r.author]),
              ("context".toList, [utf8Encode c.body]),
              ("response".toList, [utf8Encode r.body])] ++ extras ∧
        extras.length = min (2 - 1) (p.length - 2) ∧
        (∀ i, i < extras.length → ∃ cid cc, pyNeg p (3 + i) = some cid ∧
          dlookup (threadDict sampleThread) cid = some cc ∧
          extras.get? i = some (ctxName i, [utf8Encode cc.body])) ∧
        (∀ f ∈ sampleOut2, f.2.length = 1) :=
  create_examples_fields_spec sampleThread 2 3 [sampleOut1, sampleOut2]
    sampleOut2 rfl (List.mem_cons_of_mem _ (List.mem_cons_self _ _))
